import Mathlib

/-!
# Verification of the animation-blending core

A shallow embedding, in Lean 4, of the core of an animation-blending
engine (curve sampling, the `Animatable` blend/interpolation algebra,
the blend graph and its track store), together with theorems checking
the engine's natural-language specification against the code.

`f32` values are modelled as exact rationals (`ℚ`). For the graph,
track-store, curve-sampling and blend claims all arithmetic exercised
is exact in the reals at the inputs considered (or bitwise identical on
both sides of the proved equation in IEEE as well), and the claims are
about qualitative behaviour, not rounding error. The one genuinely
numerical claim is the quantization one, and there the rounding is part
of the claim: the compressed-curve model therefore applies an explicit
round-to-nearest-ties-to-even operator `fl` after every Rust `f32`
operation (subtraction, division, multiplication, addition), so that
double-rounding effects of the source are reproduced exactly.
Divergences from IEEE behaviour that could still matter are flagged in
comments at the definition concerned.
-/

namespace BevyAnim

/-- Model of `f32` as exact rationals. -/
abbrev F32 := ℚ

/-- `BlendInput<T>` from `animatable.rs`: one weighted input to `blend`. -/
structure BlendInput (T : Type) where
  weight : F32
  value : T
  additive : Bool
deriving Repr, DecidableEq

/-- `f32::interpolate` from `impl_float_animatable_32!` in `animatable.rs`:
`(*a) * (1.0 - t) + (*b) * t`. -/
def Float32.interpolate (a b t : F32) : F32 :=
  a * (1 - t) + b * t

/-- `f32::blend` from `impl_float_animatable_32!` in `animatable.rs`:
starting from `Default::default()` (`0.0`), fold each input in order;
an additive input accumulates `weight * value`, a non-additive input
re-interpolates the accumulator toward the value with `t = weight`. -/
def Float32.blend (inputs : List (BlendInput F32)) : F32 :=
  inputs.foldl
    (fun value input =>
      if input.additive then
        value + input.weight * input.value
      else
        Float32.interpolate value input.value input.weight)
    0

/-- `Vec3` from `bevy_math`, modelled componentwise. -/
structure Vec3 where
  x : F32
  y : F32
  z : F32
deriving Repr, DecidableEq

/-- Componentwise `Vec3A::interpolate` (`impl_float_animatable_32!`):
`(*a) * (1.0 - t) + (*b) * t`. `Vec3A` and `Vec3` carry the same three
components, so both are modelled by `Vec3`. -/
def Vec3.interpolate (a b : Vec3) (t : F32) : Vec3 :=
  ⟨Float32.interpolate a.x b.x t,
   Float32.interpolate a.y b.y t,
   Float32.interpolate a.z b.z t⟩

/-- Componentwise scalar multiple, `weight * vec`. -/
def Vec3.scale (w : F32) (v : Vec3) : Vec3 :=
  ⟨w * v.x, w * v.y, w * v.z⟩

/-- Componentwise sum. -/
def Vec3.add (a b : Vec3) : Vec3 :=
  ⟨a.x + b.x, a.y + b.y, a.z + b.z⟩

/-- `Vec3A::ZERO`. -/
def Vec3.zero : Vec3 := ⟨0, 0, 0⟩

/-- `Vec3::blend` from `animatable.rs`: folds from `Vec3A::ZERO`,
additive inputs accumulate `weight * value`, non-additive inputs
re-interpolate the accumulator toward the value with `t = weight`. -/
def Vec3.blend (inputs : List (BlendInput Vec3)) : Vec3 :=
  inputs.foldl
    (fun value input =>
      if input.additive then
        Vec3.add value (Vec3.scale input.weight input.value)
      else
        Vec3.interpolate value input.value input.weight)
    Vec3.zero

/-- `bool::blend` from `animatable.rs`:
`inputs.max_by(FloatOrd(weight)).map(value).unwrap_or(false)`.
Rust's `Iterator::max_by` returns the LAST element among those of
maximal weight, which the fold models by replacing the running maximum
whenever the new weight is greater than or equal to it. -/
def BoolAnim.blend (inputs : List (BlendInput Bool)) : Bool :=
  let best := inputs.foldl
    (fun acc input =>
      match acc with
      | none => some input
      | some a => if a.weight ≤ input.weight then some input else some a)
    none
  (best.map (fun input => input.value)).getD false

/-- `Quat` from `bevy_math`, modelled as four rational components. -/
structure Quat where
  x : F32
  y : F32
  z : F32
  w : F32
deriving Repr, DecidableEq

/-- `Quat::IDENTITY`. -/
def Quat.identity : Quat := ⟨0, 0, 0, 1⟩

/-- `Quat::dot` (equivalently `Vec4::dot` on the same components). -/
def Quat.dot (a b : Quat) : F32 :=
  a.x * b.x + a.y * b.y + a.z * b.z + a.w * b.w

/-- Quaternion negation `-*b`. -/
def Quat.neg (q : Quat) : Quat := ⟨-q.x, -q.y, -q.z, -q.w⟩

/-- Componentwise `Vec4::interpolate` applied to the quaternion seen as a
`Vec4` (`impl_float_animatable_32!`: `a * (1 - t) + b * t`). -/
def Quat.lerpVec4 (a b : Quat) (t : F32) : Quat :=
  ⟨Float32.interpolate a.x b.x t,
   Float32.interpolate a.y b.y t,
   Float32.interpolate a.z b.z t,
   Float32.interpolate a.w b.w t⟩

/-- `rot * inv_mag`: scale every component. -/
def Quat.scale (q : Quat) (s : F32) : Quat :=
  ⟨q.x * s, q.y * s, q.z * s, q.w * s⟩

/-- `Quat::interpolate` from `animatable.rs`: flip the sign of `b` when
`a.dot(b) < 0`, then nlerp: componentwise `Vec4::interpolate` followed by
scaling with `util::approx_rsqrt(rot.dot(rot))`.

`util::approx_rsqrt` lives in `src/util.rs`, which is not among the given
sources; it is kept abstract as the parameter `rsqrt` (modelled from the
spec: a reciprocal-square-root used to renormalize the nlerp result).
Every theorem below holds for an arbitrary `rsqrt`, so nothing depends
on its value. -/
def Quat.interpolate (rsqrt : F32 → F32) (a b : Quat) (t : F32) : Quat :=
  let b := if Quat.dot a b < 0 then Quat.neg b else b
  let rot := Quat.lerpVec4 a b t
  let inv_mag := rsqrt (Quat.dot rot rot)
  Quat.scale rot inv_mag

/-- `Quat::blend` from `animatable.rs`: fold from `Quat::IDENTITY`,
always `value = interpolate(value, input.value, input.weight)`.
Note the source loop never reads `input.additive`. -/
def Quat.blend (rsqrt : F32 → F32) (inputs : List (BlendInput Quat)) : Quat :=
  inputs.foldl
    (fun value input => Quat.interpolate rsqrt value input.value input.weight)
    Quat.identity

/-! ## Curve layer: `CurveFixed` (`curves/fixed.rs`) -/

/-- `CurveFixed<T>` from `curves/fixed.rs`: evenly spaced keyframes at a
fixed frame rate, plus a negated frame offset stored as a float. -/
structure CurveFixed (T : Type) where
  frame_rate : F32
  negative_frame_offset : F32
  keyframes : List T
deriving Repr

/-- `CurveFixed::keyframe_count`. -/
def CurveFixed.keyframe_count (c : CurveFixed T) : ℕ :=
  c.keyframes.length

/-- `Curve::time_offset` for `CurveFixed`:
`-negative_frame_offset / frame_rate`. -/
def CurveFixed.time_offset (c : CurveFixed T) : F32 :=
  -c.negative_frame_offset / c.frame_rate

/-- Rust `f32::clamp(self, lo, hi)`: `min hi (max lo x)`. -/
def clampF32 (x lo hi : F32) : F32 :=
  min hi (max lo x)

/-- `CurveFixed::sample` from `curves/fixed.rs`. The `T: Lerp` trait
method `lerp_unclamped` is passed explicitly as `lerp` (dictionary
style). Sampling an empty curve is an `assert!` failure in the source
and is modelled as `none`.

The source computes `frame = frame_time.trunc()` and
`frame_idx = frame as usize`; after the clamp, `frame_time ≥ 0`, so
truncation toward zero coincides with `Int.floor` and the cast with
`Int.toNat`. -/
def CurveFixed.sample (lerp : T → T → F32 → T) (c : CurveFixed T) (time : F32) :
    Option T :=
  match c.keyframes with
  | [] => none
  | k :: ks =>
    let n := (k :: ks).length
    let frame_time := time * c.frame_rate + c.negative_frame_offset
    let frame_time := clampF32 frame_time 0 ((n - 1 : ℕ) : F32)
    let frame : ℤ := ⌊frame_time⌋
    let t := frame_time - frame
    let frame_idx := frame.toNat
    if frame_idx ≥ n - 1 then
      (k :: ks).getLast?
    else
      some (lerp ((k :: ks).getD frame_idx k) ((k :: ks).getD (frame_idx + 1) k) t)

/-! ## Curve layer: quantized compression (`curve/compressed.rs`) -/

/-- `CompressedFloat32Storage` from `curve/compressed.rs`: either a
single repeated value or 16-bit quantized frames against an affine
`(min_value, increment)` scale. Frame indices are naturals known to fit
in 16 bits by construction. -/
inductive CompressedFloat32Storage where
  | Static (frames : ℕ) (value : F32)
  | Quantized (frames : List ℕ) (min_value : F32) (increment : F32)
deriving Repr, DecidableEq

/-- Round-to-nearest, ties-to-even, of a rational to an integer (the
integer-valued core of IEEE default rounding). -/
def rne (x : ℚ) : ℤ :=
  if x - ⌊x⌋ < 1/2 then ⌊x⌋
  else if 1/2 < x - ⌊x⌋ then ⌊x⌋ + 1
  else if ⌊x⌋ % 2 = 0 then ⌊x⌋ else ⌊x⌋ + 1

/-- IEEE binary32 rounding of an exact rational: round to nearest, ties
to even, onto the grid of 24-bit-significand binary floats. The
exponent is unbounded (no overflow, infinities, or subnormal precision
loss — every claim below stays far inside the normal range, where this
grid and the `f32` grid coincide). `Int.log 2 q` is the exponent `e`
with `2^e ≤ |q| < 2^(e+1)`. -/
def fl (q : ℚ) : ℚ :=
  if q = 0 then 0
  else if 0 < q then
    (rne (q * 2 ^ ((23 : ℤ) - Int.log 2 q)) : ℚ) * 2 ^ (Int.log 2 q - 23)
  else
    -((rne (-q * 2 ^ ((23 : ℤ) - Int.log 2 (-q))) : ℚ) *
      2 ^ (Int.log 2 (-q) - 23))

/-- Rust's saturating float-to-`u16` cast `as u16`: truncate toward
zero, then clamp into `[0, 65535]`. For the nonnegative quotients this
code produces, truncation is `Int.floor`; for negative inputs both the
Rust cast and `Int.toNat ∘ Int.floor` yield `0`. -/
def asU16 (q : F32) : ℕ :=
  min 65535 (Int.toNat ⌊q⌋)

/-- The running minimum of `quantize`'s scan (`FloatOrd` min fold),
`0` on the empty list (which `quantize` rejects before using it). -/
def minOf (values : List F32) : F32 :=
  match values with
  | [] => 0
  | v :: vs => vs.foldl min v

/-- The running maximum of `quantize`'s scan (`FloatOrd` max fold). -/
def maxOf (values : List F32) : F32 :=
  match values with
  | [] => 0
  | v :: vs => vs.foldl max v

/-- `CompressedFloat32Storage::quantize` from `curve/compressed.rs`,
on NaN-free inputs (`ℚ` has no NaN; the NaN `assert!` is modelled by
`quantizeChecked` below). The empty-input `assert!` is modelled as
`none`. Every `f32` operation of the source rounds: the increment is
the double-rounded `fl(fl(max - min) / 65535)` (`f32::from(u16::MAX)`
is exactly `65535.0`), and each stored frame is the truncating cast
`as u16` of the double-rounded quotient `fl(fl(value - min) / inc)` —
a truncation, not a rounding. The min/max scan itself is exact
(comparisons only). -/
def CompressedFloat32Storage.quantize (values : List F32) :
    Option CompressedFloat32Storage :=
  match values with
  | [] => none
  | v :: vs =>
    let min_value := minOf (v :: vs)
    let max_value := maxOf (v :: vs)
    if min_value = max_value then
      some (.Static (v :: vs).length min_value)
    else
      let increment := fl (fl (max_value - min_value) / 65535)
      some (.Quantized
        ((v :: vs).map (fun value => asU16 (fl (fl (value - min_value) / increment))))
        min_value increment)

/-- `quantize` including the per-value `assert!(!value.is_nan())`: a
source `f32` is `none` when NaN, and any NaN input makes the whole
call fail loudly (`none`). -/
def CompressedFloat32Storage.quantizeChecked (values : List (Option F32)) :
    Option CompressedFloat32Storage :=
  (values.mapM id).bind CompressedFloat32Storage.quantize

/-- Dequantization of one frame index:
`*min_value + f32::from(frames[i]) * *increment` as read in
`CompressedFloat32Storage::sample`, with each `f32` operation rounded.
The `u16 → f32` conversion of the index is exact (`65535 < 2^24`). -/
def dequantize (min_value increment : F32) (index : ℕ) : F32 :=
  fl (min_value + fl ((index : F32) * increment))

/-! ## Blend graph (`graph/node.rs`, `graph/mod.rs`)

`NodeId` and `ClipId` are `u16` arena indices in the source; the claims
never approach the `u16::MAX` capacity asserts, so both are modelled as
`ℕ`. -/

/-- `NodeInput` from `graph/node.rs`: one input edge of a blend node. -/
structure NodeInput where
  node_id : ℕ
  connected : Bool
  weight : F32
deriving Repr, DecidableEq

/-- `NodeInput::new`: edges start connected with weight `1.0`. -/
def NodeInput.new (node_id : ℕ) : NodeInput :=
  ⟨node_id, true, 1⟩

/-- `NodeInput::is_connected`. -/
def NodeInput.is_connected (i : NodeInput) : Bool :=
  i.connected

/-- `NodeInput::disconnect` as written in `graph/node.rs`:
`self.connected = true;` (sic — the source assigns `true` here). -/
def NodeInput.disconnect (i : NodeInput) : NodeInput :=
  { i with connected := true }

/-- `NodeInput::reconnect` as written in `graph/node.rs`:
`self.connected = false;` (sic — the source assigns `false` here). -/
def NodeInput.reconnect (i : NodeInput) : NodeInput :=
  { i with connected := false }

/-- `NodeInput::set_weight`. -/
def NodeInput.set_weight (i : NodeInput) (weight : F32) : NodeInput :=
  { i with weight := weight }

/-- `Node` from `graph/node.rs`: a blend node with ordered input edges
and a time-propagation flag, or a clip leaf holding one `ClipId`. -/
inductive Node where
  | Blend (inputs : List NodeInput) (propogate_time : Bool)
  | Clip (clip : ℕ)
deriving Repr, DecidableEq

/-- `ClipState` from `graph/mod.rs`: per-clip `(weight, time)`. -/
structure ClipState where
  weight : F32
  time : F32
deriving Repr, DecidableEq

/-- `GraphState` from `graph/mod.rs`: dense per-clip state, indexed by
`ClipId`. -/
structure GraphState where
  clips : List ClipState
deriving Repr, DecidableEq

/-- Update the element at index `i` (identity when out of bounds; the
source indexes with `self.clips[clip.0 as usize]`, which panics out of
bounds — no claim exercises an invalid `ClipId`). -/
def modifyAt (l : List α) (i : ℕ) (f : α → α) : List α :=
  match l, i with
  | [], _ => []
  | x :: xs, 0 => f x :: xs
  | x :: xs, n + 1 => x :: modifyAt xs n f

/-- `GraphState::set_time` for one clip. -/
def GraphState.set_time (s : GraphState) (clip : ℕ) (time : F32) : GraphState :=
  ⟨modifyAt s.clips clip (fun c => { c with time := time })⟩

/-- `GraphState::advance_time`. -/
def GraphState.advance_time (s : GraphState) (delta_time : F32) : GraphState :=
  ⟨s.clips.map (fun c => { c with time := c.time + delta_time })⟩

/-- `GraphState::clear_weights`. -/
def GraphState.clear_weights (s : GraphState) : GraphState :=
  ⟨s.clips.map (fun c => { c with weight := 0 })⟩

/-- `GraphState::add_weight`. -/
def GraphState.add_weight (s : GraphState) (clip : ℕ) (delta_weight : F32) :
    GraphState :=
  ⟨modifyAt s.clips clip (fun c => { c with weight := c.weight + delta_weight })⟩

/-- `GraphState::normalize_weights` from `graph/mod.rs`. The source
computes `weight_sum = sqrt (Σ wᵢ²)` and returns early when
`weight_sum != 0.0`; since `Σ wᵢ² ≥ 0` and `sqrt x = 0 ↔ x = 0`, the
test is modelled on the sum of squares directly (no `sqrt` needed to
decide it). When the early return is NOT taken every weight is zero and
the source computes `0.0 / 0.0 = NaN`; `ℚ` division by zero yields `0`
instead — no claim exercises that branch's result. -/
def GraphState.normalize_weights (s : GraphState) : GraphState :=
  let weight_sum_sq := (s.clips.map (fun c => c.weight * c.weight)).sum
  if weight_sum_sq ≠ 0 then
    s
  else
    ⟨s.clips.map (fun c => { c with weight := c.weight / 0 })⟩

/-- `AnimationGraphError` from `graph/mod.rs`. -/
inductive AnimationGraphError where
  | NodeNotFound (id : ℕ)
  | InputAlreadyExists (id : ℕ)
  | NotBlendNode (id : ℕ)
deriving Repr, DecidableEq

/-- `AnimationGraph` from `graph/mod.rs` (the `GraphClips` track store
is modelled separately below; the claims about it do not interact with
the node arena). -/
structure AnimationGraph where
  nodes : List Node
  state : GraphState
deriving Repr, DecidableEq

/-- The connected inputs of a blend node, in order
(`inputs.iter().filter(|input| input.is_connected())`). -/
def connectedInputs (inputs : List NodeInput) : List NodeInput :=
  inputs.filter (fun input => input.is_connected)

/-- The `while let Some(node_id) = pending.pop_front()` loop of
`AnimationGraph::set_time` (`graph/mod.rs`): a breadth-first queue with
NO visited set. A clip leaf gets its time written; a blend node appends
its connected inputs to the back of the queue only when
`propogate_time` is set; a dangling id is skipped (`continue`). The
source loop has no termination guard (a cyclic graph loops forever), so
the model consumes one unit of `fuel` per iteration and returns `none`
when the fuel runs out before the queue empties. -/
def setTimeLoop (nodes : List Node) :
    ℕ → List ℕ → GraphState → F32 → Option GraphState
  | _, [], s, _ => some s
  | 0, _ :: _, _, _ => none
  | fuel + 1, node_id :: pending, s, time =>
    match nodes.get? node_id with
    | none => setTimeLoop nodes fuel pending s time
    | some (.Clip clip) =>
      setTimeLoop nodes fuel pending (s.set_time clip time) time
    | some (.Blend inputs propogate_time) =>
      if propogate_time then
        setTimeLoop nodes fuel
          (pending ++ (connectedInputs inputs).map (fun i => i.node_id)) s time
      else
        setTimeLoop nodes fuel pending s time

/-- `AnimationGraph::set_time` from `graph/mod.rs`: fails with
`NodeNotFound` when the starting id is invalid, otherwise runs the
breadth-first propagation loop. The inner `Option` is the fuel bound:
`some s` is a terminated run with final state `s`. -/
def AnimationGraph.set_time (g : AnimationGraph) (node_id : ℕ) (time : F32)
    (fuel : ℕ) : Except AnimationGraphError (Option GraphState) :=
  match g.nodes.get? node_id with
  | none => .error (.NodeNotFound node_id)
  | some _ => .ok (setTimeLoop g.nodes fuel [node_id] g.state time)

/-- Instrumentation double of `setTimeLoop`: identical control flow, but
records the id of every node the loop visits (pops and finds in the
arena), in visit order. -/
def setTimeVisitsLoop (nodes : List Node) : ℕ → List ℕ → Option (List ℕ)
  | _, [] => some []
  | 0, _ :: _ => none
  | fuel + 1, node_id :: pending =>
    match nodes.get? node_id with
    | none => setTimeVisitsLoop nodes fuel pending
    | some (.Clip _) =>
      (setTimeVisitsLoop nodes fuel pending).map (fun v => node_id :: v)
    | some (.Blend inputs propogate_time) =>
      (setTimeVisitsLoop nodes fuel
        (if propogate_time then
          pending ++ (connectedInputs inputs).map (fun i => i.node_id)
        else pending)).map (fun v => node_id :: v)

/-- `GraphTraversalNode` from `graph/mod.rs`. -/
structure GraphTraversalNode where
  node_id : ℕ
  cumulative_weight : F32
deriving Repr, DecidableEq

/-- The `while let Some(current) = stack.pop()` loop of
`AnimationGraph::evaluate` (`graph/mod.rs`): depth-first with an
explicit stack (head of the list = top of the stack). At a clip leaf the
cumulative weight is added to the clip's slot; at a blend node each
connected input with nonzero `input.weight() * cumulative_weight` is
pushed (the source pushes in input order, so the LAST input ends up on
top: the pushed block is reversed onto the stack). Dangling ids are
skipped. Fuel bounds the unguarded loop as in `setTimeLoop`. -/
def evaluateLoop (nodes : List Node) :
    ℕ → List GraphTraversalNode → GraphState → Option GraphState
  | _, [], s => some s
  | 0, _ :: _, _ => none
  | fuel + 1, current :: stack, s =>
    match nodes.get? current.node_id with
    | none => evaluateLoop nodes fuel stack s
    | some (.Clip clip) =>
      evaluateLoop nodes fuel stack (s.add_weight clip current.cumulative_weight)
    | some (.Blend inputs _) =>
      let pushed := (connectedInputs inputs).filterMap (fun input =>
        let cumulative_weight := input.weight * current.cumulative_weight
        if cumulative_weight ≠ 0 then
          some (⟨input.node_id, cumulative_weight⟩ : GraphTraversalNode)
        else
          none)
      evaluateLoop nodes fuel (pushed.reverse ++ stack) s

/-- `AnimationGraph::evaluate` from `graph/mod.rs`: clear all weights,
traverse depth-first from `NodeId::ROOT` (id 0) with cumulative weight
`1.0`, then `normalize_weights`. `some s` is a terminated run. -/
def AnimationGraph.evaluate (g : AnimationGraph) (fuel : ℕ) :
    Option GraphState :=
  (evaluateLoop g.nodes fuel [⟨0, 1⟩] g.state.clear_weights).map
    GraphState.normalize_weights

/-- The weight recorded for clip id `i`, `0` when no such slot exists
(a clip id never registered has no weight; reading it as `0` matches
"every other clip id's weight equals 0"). -/
def GraphState.weightAt (s : GraphState) (i : ℕ) : F32 :=
  ((s.clips.get? i).map (fun c => c.weight)).getD 0

/-! ## Track store (`graph/track.rs`)

Property keys are opaque hashable/ordered keys to the core (spec §6);
`EntityPath` and `AccessPath` are modelled as `ℕ`. A type-erased
`Box<dyn ClipCurve>` is modelled by its observable data: its
`value_type_id` (`typeId : ℕ` standing for `TypeId`) and an identity
for the underlying `Arc` (`curveId : ℕ`). -/

/-- `TrackError` from `graph/track.rs`. -/
inductive TrackError where
  | IncorrectType
  | MissingTrack
deriving Repr, DecidableEq

/-- `PropertyPath` (`path.rs`): an entity path plus a field access path. -/
structure PropertyPath where
  entity : ℕ
  access : ℕ
deriving Repr, DecidableEq

/-- A type-erased curve as stored in `AnimationClip.curves`
(`Box<dyn ClipCurve>`): its value `TypeId` and the identity of the
shared curve it wraps. -/
structure ClipCurve where
  typeId : ℕ
  curveId : ℕ
deriving Repr, DecidableEq

/-- A type-erased `CurveTrack<T>` (`Box<dyn Track>`): the value
`TypeId` of `T` plus the `Vec<Option<Arc<dyn Curve<T>>>>` indexed by
clip id, each curve by identity. -/
structure Track where
  valueType : ℕ
  curves : List (Option ℕ)
deriving Repr, DecidableEq

/-- `Vec` write at index `i`, growing with `None` as
`CurveTrack::add_curve` does (`resize_with(idx + 1, || None)` then
`curves[idx] = Some(curve)`). -/
def setAtGrow (l : List (Option ℕ)) (i : ℕ) (v : Option ℕ) : List (Option ℕ) :=
  if i < l.length then
    l.set i v
  else
    (l ++ List.replicate (i + 1 - l.length) none).set i v

/-- `CurveTrack::new` via `ClipCurve::into_track`: a fresh track of the
curve's value type whose only slot is this clip's. -/
def ClipCurve.into_track (c : ClipCurve) (clip_id : ℕ) : Track :=
  ⟨c.typeId, setAtGrow [] clip_id (some c.curveId)⟩

/-- `Track::add_generic_curve` from `graph/track.rs`: the downcast to
`CurveWrapper<T>` succeeds exactly when the curve's value type matches
the track's; on success the curve is stored at the clip's index. -/
def Track.add_generic_curve (t : Track) (clip_id : ℕ) (curve : ClipCurve) :
    Except TrackError Track :=
  if curve.typeId = t.valueType then
    .ok ⟨t.valueType, setAtGrow t.curves clip_id (some curve.curveId)⟩
  else
    .error .IncorrectType

/-- `Bone` from `graph/track.rs`: its arena id, entity path, optional
bound entity, and the per-`AccessPath` ordered track map (`BTreeMap`,
modelled as an association list). -/
structure Bone where
  id : ℕ
  path : ℕ
  entity : Option ℕ
  tracks : List (ℕ × Track)
deriving Repr, DecidableEq

/-- Insert-or-replace in an association list (map `insert`). -/
def assocSet (l : List (ℕ × α)) (k : ℕ) (v : α) : List (ℕ × α) :=
  match l with
  | [] => [(k, v)]
  | (k₁, v₁) :: rest =>
    if k₁ = k then (k, v) :: rest else (k₁, v₁) :: assocSet rest k v

/-- `GraphClips` from `graph/track.rs`: the `EntityPath → BoneId` map
(association list) and the bone arena indexed by `BoneId`. -/
structure GraphClips where
  bones : List (ℕ × ℕ)
  tracks : List Bone
  dirty : Bool
deriving Repr, DecidableEq

/-- `GraphClips::find_bone`. -/
def GraphClips.find_bone (gc : GraphClips) (path : ℕ) : Option Bone :=
  (List.lookup path gc.bones).bind (fun bone_id => gc.tracks.get? bone_id)

/-- The per-pair validity test of `add_clip`'s first loop:
`find_bone(path.entity).and_then(tracks.get(path.access))
 .map(curve.value_type_id() == track.value_type_id()).unwrap_or(true)`. -/
def GraphClips.valid_curve (gc : GraphClips) (path : PropertyPath)
    (curve : ClipCurve) : Bool :=
  match gc.find_bone path.entity with
  | none => true
  | some bone =>
    match List.lookup path.access bone.tracks with
    | none => true
    | some track => curve.typeId = track.valueType

/-- The body of `add_clip`'s second (mutating) loop for one
`(path, curve)` pair: find or create the bone, then either add the
curve to the existing track (the source `.unwrap()`s the result — a
type mismatch there is a panic, modelled as `none`) or insert a fresh
track. -/
def GraphClips.addCurvePair (gc : GraphClips) (clip_id : ℕ)
    (pair : PropertyPath × ClipCurve) : Option GraphClips :=
  let path := pair.1
  let curve := pair.2
  let found : GraphClips × ℕ :=
    match List.lookup path.entity gc.bones with
    | some bone_id => (gc, bone_id)
    | none =>
      let bone_id := gc.tracks.length
      ({ gc with
          bones := gc.bones ++ [(path.entity, bone_id)],
          tracks := gc.tracks ++ [⟨bone_id, path.entity, none, []⟩],
          dirty := true }, bone_id)
  let gc₁ := found.1
  let bone_id := found.2
  match gc₁.tracks.get? bone_id with
  | none => none
  | some bone =>
    match List.lookup path.access bone.tracks with
    | some track =>
      match track.add_generic_curve clip_id curve with
      | .ok track₁ =>
        some { gc₁ with
          tracks := modifyAt gc₁.tracks bone_id
            (fun b => { b with tracks := assocSet b.tracks path.access track₁ }) }
      | .error _ => none
    | none =>
      some { gc₁ with
        tracks := modifyAt gc₁.tracks bone_id
          (fun b => { b with
            tracks := assocSet b.tracks path.access (curve.into_track clip_id) }) }

/-- `GraphClips::add_clip` from `graph/track.rs`: first a read-only
type-check pass over every `(path, curve)` pair of the clip; only when
every pair is valid does the mutating second pass run. The result pairs
the (possibly updated) store with the reported error: a failed check
returns the store untouched together with `IncorrectType`. The outer
`Option` models the `.unwrap()` panic inside the mutation pass
(`none` = panic), which the check pass makes unreachable for clips with
distinct property paths. -/
def GraphClips.add_clip (gc : GraphClips) (clip_id : ℕ)
    (clip : List (PropertyPath × ClipCurve)) :
    Option (GraphClips × Option TrackError) :=
  if clip.all (fun pair => gc.valid_curve pair.1 pair.2) then
    (clip.foldlM (fun (acc : GraphClips) pair => acc.addCurvePair clip_id pair) gc).map
      (fun gc₁ => (gc₁, none))
  else
    some (gc, some .IncorrectType)

/-! ### `CurveTrack<f32>::sample_and_blend` (`graph/track.rs`) -/

/-- `f32`'s `Lerp::lerp_unclamped` from `math/interpolation/lerp.rs`:
`a + t * (b - a)`. -/
def Float32.lerp_unclamped (a b t : F32) : F32 :=
  a + t * (b - a)

/-- `CurveTrack<f32>`: per-clip-id optional curves. The `dyn Curve<f32>`
objects are modelled as `CurveFixed F32` (the concrete curve shape of
`curves/fixed.rs`). -/
structure CurveTrackF32 where
  curves : List (Option (CurveFixed F32))

/-- `CurveTrack::sample_and_blend` from `graph/track.rs`: zip the
per-clip states with the per-clip curves, keep the pairs with nonzero
weight AND a present curve, sample each kept curve at its clip's time
as a non-additive `BlendInput` (`additive: false` is hardcoded), and
fold through `Animatable::blend`. `none` models a panic of `sample` on
an empty curve. -/
def CurveTrackF32.sample_and_blend (track : CurveTrackF32) (state : GraphState) :
    Option F32 :=
  let pairs := (state.clips.zip track.curves).filter
    (fun (pair : ClipState × Option (CurveFixed F32)) =>
      decide (pair.1.weight ≠ 0) && pair.2.isSome)
  (pairs.mapM (fun (pair : ClipState × Option (CurveFixed F32)) =>
    ((pair.2.getD ⟨0, 0, []⟩).sample Float32.lerp_unclamped pair.1.time).map
      (fun value => BlendInput.mk pair.1.weight value false))).map
    Float32.blend

/-! ## Theorems -/

/-- C7: for continuous numeric types, the non-additive blend of
`[(0.5, A), (0.5, B)]` equals the nested sequential fold
`interpolate(interpolate(default, A, 0.5), B, 0.5)` (with
`default = 0.0` for `f32`), and for some `A`, `B` this differs from the
simple average `(A + B) / 2`. -/
theorem float32_blend_is_sequential_fold :
    (∀ A B : F32,
      Float32.blend [⟨1/2, A, false⟩, ⟨1/2, B, false⟩] =
        Float32.interpolate (Float32.interpolate 0 A (1/2)) B (1/2)) ∧
    ∃ A B : F32,
      Float32.blend [⟨1/2, A, false⟩, ⟨1/2, B, false⟩] ≠ (A + B) / 2 := by
  constructor
  · intro A B
    simp [Float32.blend, Float32.interpolate]
  · refine ⟨4, 0, ?_⟩
    norm_num [Float32.blend, Float32.interpolate]

/-- C8: for quaternions `a`, `b` of unit norm whose dot product is
negative, `Quat::interpolate(a, b, 0.5)` equals
`Quat::interpolate(a, -b, 0.5)`: the sign of the second operand is
flipped so interpolation always takes the short rotational path. Holds
for any model `rsqrt` of `util::approx_rsqrt`. -/
theorem quat_interpolate_sign_flip_invariance (rsqrt : F32 → F32) (a b : Quat)
    (ha : Quat.dot a a = 1) (hb : Quat.dot b b = 1)
    (hdot : Quat.dot a b < 0) :
    Quat.interpolate rsqrt a b (1/2) =
      Quat.interpolate rsqrt a (Quat.neg b) (1/2) := by
  have hneg : Quat.dot a (Quat.neg b) = -Quat.dot a b := by
    simp only [Quat.dot, Quat.neg]
    ring
  have hnotlt : ¬ Quat.dot a (Quat.neg b) < 0 := by
    rw [hneg]
    linarith
  simp only [Quat.interpolate, if_pos hdot, if_neg hnotlt]

/-- C8 witness: the sign-flip invariance at `a = (0,0,0,1)`,
`b = (0,0,0,-1)` (unit quaternions with dot product `-1 < 0`), with
`rsqrt` the constant-one function. -/
theorem quat_interpolate_sign_flip_invariance_witness :
    Quat.interpolate (fun _ => 1) ⟨0, 0, 0, 1⟩ ⟨0, 0, 0, -1⟩ (1/2) =
      Quat.interpolate (fun _ => 1) ⟨0, 0, 0, 1⟩ (Quat.neg ⟨0, 0, 0, -1⟩) (1/2) :=
  quat_interpolate_sign_flip_invariance (fun _ => 1) ⟨0, 0, 0, 1⟩ ⟨0, 0, 0, -1⟩
    (by norm_num [Quat.dot]) (by norm_num [Quat.dot]) (by norm_num [Quat.dot])

/-- The additive-flag-erasing projection of a quaternion blend input:
its weight and value. -/
def stripAdditive (input : BlendInput Quat) : F32 × Quat :=
  (input.weight, input.value)

/-- C10: `Quat::blend` ignores the `additive` flag of its inputs
entirely: two input sequences agreeing on weights and values (in order)
blend to the same quaternion whatever their additive flags, for any
model `rsqrt` of `util::approx_rsqrt`. -/
theorem quat_blend_ignores_additive (rsqrt : F32 → F32)
    (l₁ l₂ : List (BlendInput Quat))
    (h : l₁.map stripAdditive = l₂.map stripAdditive) :
    Quat.blend rsqrt l₁ = Quat.blend rsqrt l₂ := by
  have key : ∀ (l₁ l₂ : List (BlendInput Quat)) (acc : Quat),
      l₁.map stripAdditive = l₂.map stripAdditive →
      l₁.foldl (fun value input =>
        Quat.interpolate rsqrt value input.value input.weight) acc =
      l₂.foldl (fun value input =>
        Quat.interpolate rsqrt value input.value input.weight) acc := by
    intro l₁
    induction l₁ with
    | nil =>
      intro l₂ acc h
      rw [List.map_nil] at h
      rw [List.eq_nil_of_map_eq_nil h.symm]
    | cons x xs ih =>
      intro l₂ acc h
      cases l₂ with
      | nil => simp at h
      | cons y ys =>
        simp only [List.map_cons, List.cons.injEq] at h
        have hw : x.weight = y.weight :=
          congrArg Prod.fst h.1
        have hv : x.value = y.value :=
          congrArg Prod.snd h.1
        simp only [List.foldl_cons, hw, hv]
        exact ih ys _ h.2
  exact key l₁ l₂ Quat.identity h

/-- C10 witness: a single input of weight 1 marked additive blends
exactly as the same input marked non-additive. -/
theorem quat_blend_ignores_additive_witness :
    Quat.blend (fun _ => 1) [⟨1, ⟨1, 0, 0, 0⟩, true⟩] =
      Quat.blend (fun _ => 1) [⟨1, ⟨1, 0, 0, 0⟩, false⟩] :=
  quat_blend_ignores_additive (fun _ => 1)
    [⟨1, ⟨1, 0, 0, 0⟩, true⟩] [⟨1, ⟨1, 0, 0, 0⟩, false⟩] (by simp [stripAdditive])

/-- Filtering the zipped clip/curve pairs keeps nothing when every clip
weight is zero or when every curve slot is empty. -/
theorem filter_zip_nil_of_inactive (cs : List ClipState)
    (curves : List (Option (CurveFixed F32)))
    (h : (∀ c ∈ cs, c.weight = 0) ∨ ∀ cur ∈ curves, cur = none) :
    (cs.zip curves).filter
      (fun (pair : ClipState × Option (CurveFixed F32)) =>
        decide (pair.1.weight ≠ 0) && pair.2.isSome) = [] := by
  induction cs generalizing curves with
  | nil => simp
  | cons c cs ih =>
    cases curves with
    | nil => simp
    | cons cur curves =>
      have htail : (∀ x ∈ cs, x.weight = 0) ∨ ∀ x ∈ curves, x = none := by
        rcases h with h | h
        · exact Or.inl (fun x hx => h x (List.mem_cons_of_mem c hx))
        · exact Or.inr (fun x hx => h x (List.mem_cons_of_mem cur hx))
      have hhead :
          (decide (c.weight ≠ 0) && cur.isSome) = false := by
        rcases h with h | h
        · have := h c (List.mem_cons_self c cs)
          simp [this]
        · have := h cur (List.mem_cons_self cur curves)
          simp [this]
      simp only [List.zip_cons_cons, List.filter_cons, hhead]
      exact ih curves htail

/-- C9: blending an empty input sequence returns the type's neutral
element — `0.0` for `f32`, the zero vector for `Vec3`, `false` for
`bool`, the identity quaternion for rotations — and consequently a
track whose every contributing clip has zero weight (or no curve for
the property) samples and blends to that neutral value rather than an
error or a previous value. -/
theorem blend_empty_is_neutral (track : CurveTrackF32) (state : GraphState)
    (h : (∀ c ∈ state.clips, c.weight = 0) ∨
      ∀ cur ∈ track.curves, cur = none) :
    Float32.blend [] = 0 ∧
    Vec3.blend [] = Vec3.zero ∧
    BoolAnim.blend [] = false ∧
    (∀ rsqrt : F32 → F32, Quat.blend rsqrt [] = Quat.identity) ∧
    track.sample_and_blend state = some 0 := by
  refine ⟨rfl, rfl, rfl, fun _ => rfl, ?_⟩
  unfold CurveTrackF32.sample_and_blend
  rw [filter_zip_nil_of_inactive state.clips track.curves h]
  rfl

/-- C9 witness: a track with one two-keyframe curve over a one-clip
state of weight zero blends to `some 0`. -/
theorem blend_empty_is_neutral_witness :
    Float32.blend [] = 0 ∧
    Vec3.blend [] = Vec3.zero ∧
    BoolAnim.blend [] = false ∧
    (∀ rsqrt : F32 → F32, Quat.blend rsqrt [] = Quat.identity) ∧
    CurveTrackF32.sample_and_blend ⟨[some ⟨1, 0, [3, 4]⟩]⟩ ⟨[⟨0, 7⟩]⟩ = some 0 :=
  blend_empty_is_neutral ⟨[some ⟨1, 0, [3, 4]⟩]⟩ ⟨[⟨0, 7⟩]⟩
    (Or.inl (by simp))

/-- C6: for every `CurveFixed` with at least one keyframe and positive
frame rate, sampling at or beyond the last keyframe's time
(`time_offset + (keyframe_count - 1) / frame_rate`) returns the last
keyframe's value unchanged — clamped, not extrapolated. Holds for any
`Lerp` instance `lerp` since the clamp branch never interpolates. -/
theorem curve_fixed_sample_clamps_at_end {T : Type}
    (lerp : T → T → F32 → T) (c : CurveFixed T) (time : F32)
    (hne : c.keyframes ≠ []) (hrate : 0 < c.frame_rate)
    (htime : c.time_offset + ((c.keyframe_count - 1 : ℕ) : F32) / c.frame_rate ≤ time) :
    c.sample lerp time = c.keyframes.getLast? := by
  obtain ⟨rate, nfo, kfs⟩ := c
  cases kfs with
  | nil => exact absurd rfl hne
  | cons k ks =>
    simp only [CurveFixed.time_offset, CurveFixed.keyframe_count] at htime hrate
    rw [div_add_div_same, div_le_iff₀ hrate] at htime
    have hframe : (((k :: ks).length - 1 : ℕ) : F32) ≤ time * rate + nfo := by
      linarith
    have hclamp :
        clampF32 (time * rate + nfo) 0 (((k :: ks).length - 1 : ℕ) : F32) =
          (((k :: ks).length - 1 : ℕ) : F32) := by
      unfold clampF32
      have h0 : (0 : F32) ≤ (((k :: ks).length - 1 : ℕ) : F32) := Nat.cast_nonneg _
      rw [max_eq_right (le_trans h0 hframe), min_eq_left hframe]
    show CurveFixed.sample lerp ⟨rate, nfo, k :: ks⟩ time = (k :: ks).getLast?
    unfold CurveFixed.sample
    simp only [hclamp, Int.floor_natCast, Int.toNat_natCast, ge_iff_le,
      le_refl, if_pos]

/-- C6 witness: a 2-keyframe 1 Hz curve `[0.0, 10.0]` sampled at
`t = 5.0` returns `10.0`. -/
theorem curve_fixed_sample_clamps_at_end_witness :
    (CurveFixed.mk 1 0 [(0 : F32), 10]).sample Float32.lerp_unclamped 5 = some 10 := by
  have h := curve_fixed_sample_clamps_at_end Float32.lerp_unclamped
    (CurveFixed.mk 1 0 [(0 : F32), 10]) 5 (by simp)
    (by norm_num)
    (by norm_num [CurveFixed.time_offset, CurveFixed.keyframe_count])
  simpa using h

/-- Modelled from the spec: the stored index the spec claims —
`round((value - min) / increment)` — as a 16-bit value, for comparison
with the source's truncating cast. -/
def roundU16 (q : F32) : ℕ :=
  min 65535 (Int.toNat (round q))

/-- `Int.log 2` agrees with explicitly given binary-exponent bounds. -/
theorem log2_eq_of_bounds {s : ℚ} {e : ℤ} (h0 : 0 < s)
    (h1 : (2 : ℚ) ^ e ≤ s) (h2 : s < (2 : ℚ) ^ (e + 1)) : Int.log 2 s = e := by
  have hle : e ≤ Int.log 2 s := by
    rw [← Int.zpow_le_iff_le_log (by norm_num) h0]
    exact_mod_cast h1
  have hlt : Int.log 2 s < e + 1 := by
    rw [← Int.lt_zpow_iff_log_lt (by norm_num) h0]
    exact_mod_cast h2
  omega

/-- `rne` rounds down when the fractional part is below one half. -/
theorem rne_eq_of_lt_half {x : ℚ} {f : ℤ} (h1 : (f : ℚ) ≤ x)
    (h2 : x < (f : ℚ) + 1/2) : rne x = f := by
  have hf : ⌊x⌋ = f := Int.floor_eq_iff.mpr ⟨h1, by linarith⟩
  rw [rne, hf, if_pos (by linarith : x - (f : ℚ) < 1/2)]

/-- `rne` rounds up when the fractional part is above one half. -/
theorem rne_eq_of_gt_half {x : ℚ} {f : ℤ} (h1 : (f : ℚ) + 1/2 < x)
    (h2 : x < (f : ℚ) + 1) : rne x = f + 1 := by
  have hf : ⌊x⌋ = f := Int.floor_eq_iff.mpr ⟨by linarith, by linarith⟩
  rw [rne, hf, if_neg (by linarith : ¬ x - (f : ℚ) < 1/2),
    if_pos (by linarith : 1/2 < x - (f : ℚ))]

/-- `rne` is the identity on integers. -/
theorem rne_intCast (n : ℤ) : rne (n : ℚ) = n :=
  rne_eq_of_lt_half (le_refl _) (by norm_num)

/-- `fl 0 = 0`. -/
theorem fl_zero : fl 0 = 0 := by
  rw [fl, if_pos rfl]

/-- Evaluating `fl` at a positive rational from its exponent bounds and
rounded mantissa. -/
theorem fl_eval_pos {q : ℚ} {e m : ℤ} (hq : 0 < q)
    (h1 : (2 : ℚ) ^ e ≤ q) (h2 : q < (2 : ℚ) ^ (e + 1))
    (hm : rne (q * 2 ^ ((23 : ℤ) - e)) = m) :
    fl q = (m : ℚ) * 2 ^ (e - 23) := by
  rw [fl, if_neg (ne_of_gt hq), if_pos hq, log2_eq_of_bounds hq h1 h2, hm]

/-- `2106.053466796875 = 8626395/4096` is exactly representable in f32
(integer mantissa `8626395 < 2^24` at exponent 11). -/
theorem fl_sample_max : fl ((8626395 : ℚ) / 4096) = 8626395 / 4096 := by
  have hm : rne ((8626395 : ℚ) / 4096 * 2 ^ ((23 : ℤ) - 11)) = 8626395 := by
    have harg : (8626395 : ℚ) / 4096 * 2 ^ ((23 : ℤ) - 11) =
        ((8626395 : ℤ) : ℚ) := by norm_num
    rw [harg, rne_intCast]
  rw [fl_eval_pos (by norm_num) (by norm_num) (by norm_num) hm]
  norm_num

/-- The f32 increment for the range `[0, 8626395/4096]`:
`fl((8626395/4096) / 65535) = 8626527/2^28` — the true quotient's
mantissa scaling `2217017344/257 ≈ 8626526.63` rounds UP. -/
theorem fl_sample_inc :
    fl ((8626395 : ℚ) / 4096 / 65535) = 8626527 / 268435456 := by
  have hm : rne ((8626395 : ℚ) / 4096 / 65535 * 2 ^ ((23 : ℤ) - (-5))) =
      8626527 := by
    have harg : (8626395 : ℚ) / 4096 / 65535 * 2 ^ ((23 : ℤ) - (-5)) =
        2217017344 / 257 := by norm_num
    rw [harg]
    have h := rne_eq_of_gt_half (f := 8626526)
      (x := (2217017344 : ℚ) / 257) (by norm_num) (by norm_num)
    rw [h]
    norm_num
  rw [fl_eval_pos (by norm_num) (by norm_num) (by norm_num) hm]
  norm_num

/-- Dividing the max sample by the rounded-up increment in f32:
`fl((8626395/4096) / (8626527/2^28)) = 16776959/256 = 65534.99609375` —
strictly below 65535, so the truncating cast stores 65534. -/
theorem fl_sample_quot :
    fl ((8626395 : ℚ) / 4096 / (8626527 / 268435456)) = 16776959 / 256 := by
  have hm : rne ((8626395 : ℚ) / 4096 / (8626527 / 268435456) *
      2 ^ ((23 : ℤ) - 15)) = 16776959 := by
    have harg : (8626395 : ℚ) / 4096 / (8626527 / 268435456) *
        2 ^ ((23 : ℤ) - 15) = 48242297405440 / 2875509 := by norm_num
    rw [harg]
    exact rne_eq_of_lt_half (by norm_num) (by norm_num)
  rw [fl_eval_pos (by norm_num) (by norm_num) (by norm_num) hm]
  norm_num

/-- C3 counterexample: on the NaN-free, non-constant f32 input
`[0, 2106.053466796875]` (both values exactly representable), the
double-rounded f32 quotient for the max sample is
`fl(fl(max - min) / fl(fl(max - min) / 65535)) = 65534.99609375`, so
the source's truncating cast stores the max at index 65534 — whereas
the claimed `round((value - min) / increment)` is 65535. This refutes
both the `round(...)` storage rule and "max exactly as index 65535". -/
theorem quantize_truncates_not_rounds :
    CompressedFloat32Storage.quantize [0, 8626395/4096] =
      some (.Quantized [0, 65534] 0 (8626527/268435456)) ∧
    roundU16 (fl (fl ((8626395 : F32)/4096 - 0) / (8626527/268435456))) =
      65535 ∧
    (65534 : ℕ) ≠ 65535 := by
  have h0 : minOf [0, (8626395 : ℚ)/4096] = 0 := by
    norm_num [minOf, min_def]
  have h1 : maxOf [0, (8626395 : ℚ)/4096] = 8626395/4096 := by
    norm_num [maxOf, max_def]
  refine ⟨?_, ?_, by decide⟩
  · simp only [CompressedFloat32Storage.quantize, h0, h1]
    rw [if_neg (by norm_num)]
    simp only [sub_zero, fl_sample_max, fl_sample_inc, List.map_cons,
      List.map_nil, fl_zero, zero_div, fl_sample_quot]
    norm_num [asU16, Int.floor_eq_iff]
    decide
  · rw [sub_zero, fl_sample_max, fl_sample_quot]
    norm_num [roundU16, round_eq, Int.floor_eq_iff]

/-- `List.mapM id` over `Option` fails as soon as any element is
`none` (the per-value NaN `assert!`). -/
theorem mapM_id_none {α : Type} (l : List (Option α)) (h : none ∈ l) :
    l.mapM id = none := by
  have key : ∀ (l : List (Option α)), none ∈ l →
      ∀ acc : List α, List.mapM.loop id l acc = none := by
    intro l h
    induction l with
    | nil => cases h
    | cons x xs ih =>
      intro acc
      cases x with
      | none => rfl
      | some a =>
        have hx : none ∈ xs := by
          rcases List.mem_cons.mp h with h1 | h1
          · simp at h1
          · exact h1
        exact ih hx (a :: acc)
  exact key l h []

/-- A `foldl min` lands on its seed or on a list element. -/
theorem foldl_min_mem (l : List ℚ) : ∀ a : ℚ, l.foldl min a ∈ a :: l := by
  induction l with
  | nil =>
    intro a
    simp
  | cons x xs ih =>
    intro a
    rw [List.foldl_cons]
    rcases List.mem_cons.mp (ih (min a x)) with h1 | h1
    · rw [h1]
      rcases min_choice a x with hc | hc <;> rw [hc] <;> simp
    · exact List.mem_cons_of_mem _ (List.mem_cons_of_mem _ h1)

/-- The scanned minimum of a nonempty list is one of its elements. -/
theorem minOf_mem (values : List F32) (h : values ≠ []) :
    minOf values ∈ values := by
  cases values with
  | nil => exact absurd rfl h
  | cons v vs =>
    simp only [minOf]
    exact foldl_min_mem vs v

/-- C3 amended: for every non-constant input sequence of f32 values,
quantization stores each sample as the truncating 16-bit cast
`trunc((value - min) / increment)` of the f32-rounded quotient (not a
rounding) with `increment = (max - min) / 65535` computed in f32; a
sample equal to `min` is encoded exactly as index `0`, and index `0`
dequantizes back to the exact `min`; any NaN input makes the call fail
loudly. (Max-exactness does not survive the f32 double rounding: the
max sample can be stored as index 65534, see the counterexample.) -/
theorem quantize_amended (values : List F32) (ovs : List (Option F32))
    (hne : values ≠ []) (hmm : minOf values ≠ maxOf values)
    (hrep : ∀ v ∈ values, fl v = v) (hnan : none ∈ ovs) :
    CompressedFloat32Storage.quantize values =
      some (.Quantized
        (values.map (fun value =>
          asU16 (fl (fl (value - minOf values) /
            fl (fl (maxOf values - minOf values) / 65535)))))
        (minOf values) (fl (fl (maxOf values - minOf values) / 65535))) ∧
    asU16 (fl (fl (minOf values - minOf values) /
      fl (fl (maxOf values - minOf values) / 65535))) = 0 ∧
    dequantize (minOf values) (fl (fl (maxOf values - minOf values) / 65535)) 0 =
      minOf values ∧
    CompressedFloat32Storage.quantizeChecked ovs = none := by
  refine ⟨?_, ?_, ?_, ?_⟩
  · cases values with
    | nil => exact absurd rfl hne
    | cons v vs =>
      simp only [CompressedFloat32Storage.quantize]
      rw [if_neg hmm]
  · rw [sub_self, fl_zero, zero_div, fl_zero]
    norm_num [asU16]
  · rw [dequantize]
    simp only [Nat.cast_zero, zero_mul, fl_zero, add_zero]
    exact hrep _ (minOf_mem values hne)
  · rw [CompressedFloat32Storage.quantizeChecked, mapM_id_none ovs hnan]
    rfl

/-- C3 amended witness: the amended quantization facts at the concrete
non-constant f32 input `[0, 2106.053466796875]`, and the loud failure
on a NaN input list. -/
theorem quantize_amended_witness :
    CompressedFloat32Storage.quantize [0, 8626395/4096] =
      some (.Quantized
        (([0, 8626395/4096] : List F32).map (fun value =>
          asU16 (fl (fl (value - minOf [0, 8626395/4096]) /
            fl (fl (maxOf [0, 8626395/4096] - minOf [0, 8626395/4096]) /
              65535)))))
        (minOf [0, 8626395/4096])
        (fl (fl (maxOf [0, 8626395/4096] - minOf [0, 8626395/4096]) / 65535))) ∧
    asU16 (fl (fl (minOf [0, 8626395/4096] - minOf [0, 8626395/4096]) /
      fl (fl (maxOf [0, 8626395/4096] - minOf [0, 8626395/4096]) / 65535))) = 0 ∧
    dequantize (minOf [0, 8626395/4096])
      (fl (fl (maxOf [0, 8626395/4096] - minOf [0, 8626395/4096]) / 65535)) 0 =
      minOf [0, 8626395/4096] ∧
    CompressedFloat32Storage.quantizeChecked [some 0, none] = none :=
  quantize_amended [0, 8626395/4096] [some 0, none] (by simp)
    (by norm_num [minOf, maxOf, min_def, max_def])
    (by
      intro v hv
      rcases List.mem_cons.mp hv with h | h
      · rw [h]
        exact fl_zero
      · rcases List.mem_cons.mp h with h1 | h1
        · rw [h1]
          exact fl_sample_max
        · cases h1)
    (by simp)

/-- C1: `NodeInput::disconnect` assigns `connected = true` (and
`reconnect` assigns `false`) — the two are swapped in the source — so
after "disconnecting" the root's only edge, `evaluate()` still
traverses the edge and leaves the leaf clip's influence weight at
`1.0` instead of zeroing it: the concrete failing run demanded by the
claim. -/
theorem disconnect_bug_evaluation :
    ((NodeInput.new 1).disconnect).is_connected = true ∧
    ((NodeInput.new 1).reconnect).is_connected = false ∧
    (AnimationGraph.mk [.Blend [(NodeInput.new 1).disconnect] true, .Clip 0]
      ⟨[⟨0, 0⟩]⟩).evaluate 2 = some ⟨[⟨1, 0⟩]⟩ := by
  refine ⟨rfl, rfl, ?_⟩
  norm_num [AnimationGraph.evaluate, evaluateLoop, GraphState.clear_weights,
    GraphState.add_weight, GraphState.normalize_weights, modifyAt,
    connectedInputs, NodeInput.is_connected, NodeInput.new, NodeInput.disconnect]

/-- The per-clip squared weights of a weight-cleared tail sum to zero. -/
theorem sq_sum_zeroed (l : List ClipState) :
    ((l.map (fun c => { c with weight := (0 : F32) })).map
      (fun c => c.weight * c.weight)).sum = 0 := by
  induction l with
  | nil => rfl
  | cons c cs ih =>
    simp only [List.map_cons, List.sum_cons, ih]
    norm_num

/-- Reading any weight of a weight-cleared tail yields zero. -/
theorem weight_get_zeroed (l : List ClipState) (j : ℕ) :
    ((((l.map (fun c => { c with weight := (0 : F32) })).get? j).map
      (fun c => c.weight)).getD 0) = 0 := by
  rw [List.get?_map]
  cases l.get? j <;> simp

/-- C2: for a graph whose root is a single blend node with exactly two
clip-leaf children connected with edge weights `0.3` and `0.7`, after
`evaluate()` the first child's clip weight is `0.3`, the second child's
is `0.7`, and every other clip id's weight is `0` (whatever the root's
propagate-time flag, the clips' prior times, and any extra registered
clips). The final `normalize_weights` is a no-op here because its
early return fires whenever the weight vector is nonzero. -/
theorem evaluate_two_child_blend (p : Bool) (c0 c1 : ClipState)
    (rest : List ClipState) :
    ∃ s, (AnimationGraph.mk
        [.Blend [⟨1, true, 3/10⟩, ⟨2, true, 7/10⟩] p, .Clip 0, .Clip 1]
        ⟨c0 :: c1 :: rest⟩).evaluate 3 = some s ∧
      s.weightAt 0 = 3/10 ∧ s.weightAt 1 = 7/10 ∧
      ∀ i, 2 ≤ i → s.weightAt i = 0 := by
  refine ⟨⟨{ c0 with weight := 3/10 } :: { c1 with weight := 7/10 } ::
    rest.map (fun c => { c with weight := 0 })⟩, ?_, ?_, ?_, ?_⟩
  · have hloop : evaluateLoop
        [.Blend [⟨1, true, 3/10⟩, ⟨2, true, 7/10⟩] p, .Clip 0, .Clip 1] 3
        [⟨0, 1⟩]
        (GraphState.clear_weights ⟨c0 :: c1 :: rest⟩) =
        some ⟨{ c0 with weight := 3/10 } :: { c1 with weight := 7/10 } ::
          rest.map (fun c => { c with weight := 0 })⟩ := by
      norm_num [evaluateLoop, connectedInputs, NodeInput.is_connected,
        GraphState.add_weight, GraphState.clear_weights, modifyAt,
        List.filterMap_cons, List.filterMap_nil]
    have hnorm : GraphState.normalize_weights
        ⟨{ c0 with weight := 3/10 } :: { c1 with weight := 7/10 } ::
          rest.map (fun c => { c with weight := 0 })⟩ =
        ⟨{ c0 with weight := 3/10 } :: { c1 with weight := 7/10 } ::
          rest.map (fun c => { c with weight := 0 })⟩ := by
      unfold GraphState.normalize_weights
      rw [if_pos]
      simp only [List.map_cons, List.sum_cons, sq_sum_zeroed]
      norm_num
    rw [AnimationGraph.evaluate, hloop, Option.map_some', hnorm]
  · simp [GraphState.weightAt]
  · simp [GraphState.weightAt]
  · intro i hi
    obtain ⟨j, rfl⟩ : ∃ j, i = j + 2 := ⟨i - 2, by omega⟩
    simp only [GraphState.weightAt, List.get?]
    exact weight_get_zeroed rest j

/-- C4 counterexample: `set_time`'s breadth-first queue has no visited
set, so in a fan-in graph (root blend 0 over blends 1 and 2, both
feeding clip-leaf node 3, all propagating) the traversal started at the
root visits node 3 twice in one call — refuting "each reachable node is
visited at most once per call". The first conjunct is the actual
`set_time` run; the second is its traversal-count instrumentation
double. -/
theorem set_time_fan_in_visits_twice :
    (AnimationGraph.mk
      [.Blend [NodeInput.new 1, NodeInput.new 2] true,
       .Blend [NodeInput.new 3] true,
       .Blend [NodeInput.new 3] true,
       .Clip 0] ⟨[⟨0, 0⟩]⟩).set_time 0 9 5 = .ok (some ⟨[⟨0, 9⟩]⟩) ∧
    setTimeVisitsLoop
      [.Blend [NodeInput.new 1, NodeInput.new 2] true,
       .Blend [NodeInput.new 3] true,
       .Blend [NodeInput.new 3] true,
       .Clip 0] 5 [0] = some [0, 1, 2, 3, 3] ∧
    ([0, 1, 2, 3, 3] : List ℕ).count 3 = 2 := by
  refine ⟨?_, by decide, by decide⟩
  norm_num [AnimationGraph.set_time, setTimeLoop, GraphState.set_time,
    modifyAt, connectedInputs, NodeInput.is_connected, NodeInput.new]

/-- C4 amended: `set_time(node, time)` propagates the time breadth
first through connected inputs, continuing past a blend node only when
its `propogate_time` flag is set; a non-propagating blend node absorbs
the write (leaving every clip time unchanged) and a clip leaf gets
exactly its own time written; a node reachable through several
connected paths is visited once per path (there is no visited set), so
"at most once per call" holds only for graphs without fan-in. -/
theorem set_time_propagation_amended :
    (∀ (g : AnimationGraph) (node_id : ℕ) (time : F32) (fuel : ℕ)
      (inputs : List NodeInput),
      g.nodes.get? node_id = some (.Blend inputs false) →
      g.set_time node_id time (fuel + 1) = .ok (some g.state)) ∧
    (∀ (g : AnimationGraph) (node_id : ℕ) (time : F32) (fuel : ℕ) (clip : ℕ),
      g.nodes.get? node_id = some (.Clip clip) →
      g.set_time node_id time (fuel + 1) =
        .ok (some (g.state.set_time clip time))) ∧
    (∀ (nodes : List Node) (fuel : ℕ) (node_id : ℕ) (pending : List ℕ)
      (s : GraphState) (time : F32) (inputs : List NodeInput),
      nodes.get? node_id = some (.Blend inputs true) →
      setTimeLoop nodes (fuel + 1) (node_id :: pending) s time =
        setTimeLoop nodes fuel
          (pending ++ (connectedInputs inputs).map (fun i => i.node_id))
          s time) := by
  refine ⟨?_, ?_, ?_⟩
  · intro g node_id time fuel inputs h
    have h2 : g.nodes[node_id]? = some (.Blend inputs false) := by
      rw [← List.get?_eq_getElem?]
      exact h
    rw [AnimationGraph.set_time, h]
    simp [setTimeLoop, h2]
  · intro g node_id time fuel clip h
    have h2 : g.nodes[node_id]? = some (.Clip clip) := by
      rw [← List.get?_eq_getElem?]
      exact h
    rw [AnimationGraph.set_time, h]
    simp [setTimeLoop, h2]
  · intro nodes fuel node_id pending s time inputs h
    have h2 : nodes[node_id]? = some (.Blend inputs true) := by
      rw [← List.get?_eq_getElem?]
      exact h
    simp [setTimeLoop, h2]

/-- C4 amended witness: the three amended propagation facts at concrete
graphs — a non-propagating blend root absorbs the write, a clip leaf
gets exactly its time written, and a propagating blend continues to its
connected inputs. -/
theorem set_time_propagation_amended_witness :
    (AnimationGraph.mk [.Blend [NodeInput.new 1] false, .Clip 0]
      ⟨[⟨2, 3⟩]⟩).set_time 0 9 1 = .ok (some ⟨[⟨2, 3⟩]⟩) ∧
    (AnimationGraph.mk [.Clip 0] ⟨[⟨2, 3⟩]⟩).set_time 0 9 1 =
      .ok (some (GraphState.set_time ⟨[⟨2, 3⟩]⟩ 0 9)) ∧
    setTimeLoop [.Blend [NodeInput.new 1] true, .Clip 0] 1 [0] ⟨[⟨2, 3⟩]⟩ 9 =
      setTimeLoop [.Blend [NodeInput.new 1] true, .Clip 0] 0
        ([] ++ (connectedInputs [NodeInput.new 1]).map (fun i => i.node_id))
        ⟨[⟨2, 3⟩]⟩ 9 :=
  ⟨set_time_propagation_amended.1 _ 0 9 0 [NodeInput.new 1] rfl,
   set_time_propagation_amended.2.1 _ 0 9 0 0 rfl,
   set_time_propagation_amended.2.2 _ 0 0 [] ⟨[⟨2, 3⟩]⟩ 9 [NodeInput.new 1] rfl⟩

/-- C5: registering a clip type-checks every `(property, curve)` pair
against the existing tracks before any mutation: if any pair's curve
type conflicts with an already-tracked property's stored value type,
`add_clip` reports `IncorrectType` and returns the track store
completely unchanged — no property of the clip is added. -/
theorem add_clip_atomic_on_type_conflict (gc : GraphClips) (clip_id : ℕ)
    (clip : List (PropertyPath × ClipCurve)) (pair : PropertyPath × ClipCurve)
    (hmem : pair ∈ clip) (hconflict : gc.valid_curve pair.1 pair.2 = false) :
    gc.add_clip clip_id clip = some (gc, some .IncorrectType) := by
  rw [GraphClips.add_clip, if_neg]
  intro hall
  have := List.all_eq_true.mp hall pair hmem
  rw [hconflict] at this
  exact Bool.false_ne_true this

/-- C5 witness: a store tracking property `(0,0)` at value type `0`;
a clip carrying a fresh well-typed property `(0,1)` and a conflicting
curve of type `1` for `(0,0)` is rejected atomically with
`IncorrectType`, the store returned unchanged. -/
theorem add_clip_atomic_on_type_conflict_witness :
    (GraphClips.mk [(0, 0)] [⟨0, 0, none, [(0, Track.mk 0 [some 5])]⟩]
      false).add_clip 1 [(⟨0, 1⟩, ⟨0, 7⟩), (⟨0, 0⟩, ⟨1, 8⟩)] =
      some (GraphClips.mk [(0, 0)] [⟨0, 0, none, [(0, Track.mk 0 [some 5])]⟩]
        false, some .IncorrectType) :=
  add_clip_atomic_on_type_conflict
    (GraphClips.mk [(0, 0)] [⟨0, 0, none, [(0, Track.mk 0 [some 5])]⟩] false)
    1 [(⟨0, 1⟩, ⟨0, 7⟩), (⟨0, 0⟩, ⟨1, 8⟩)] (⟨0, 0⟩, ⟨1, 8⟩)
    (by decide) (by decide)

end BevyAnim
